import Mathlib

/-
Verification of the inverted-index search core (src/main.rs).

Strings are embedded as `List Char` (`Str`); Rust's `HashMap` is embedded as an
association list, which supports exactly the operations the source uses
(`get`, `entry(..).or_insert(..).push(..)`, `insert`).  `str::to_lowercase` /
`char::is_alphanumeric` are embedded charwise through Lean's ASCII `Char.toLower`
/ `Char.isAlphanum`; the Unicode extension of either plays no role in any of
the properties proved here.
-/

namespace InvIdx

abbrev Str := List Char

/-- Models `str::to_lowercase` charwise (ASCII fragment). -/
def lowerChar (c : Char) : Char := c.toLower

/-- Models lowercasing a whole string. -/
def lowerStr (s : Str) : Str := s.map lowerChar

/-- Models `char::is_alphanumeric` (ASCII fragment). -/
def isAlnum (c : Char) : Bool := c.isAlphanum

/-- Models `text.split(|ch: char| !ch.is_alphanumeric())`: the pieces of the
string lying between separator characters, including empty pieces produced by
leading/trailing/consecutive separators, in left-to-right order. -/
def splitNonAlnum : Str → List Str
  | [] => [[]]
  | c :: cs =>
    if isAlnum c then
      match splitNonAlnum cs with
      | [] => [[c]]
      | t :: ts => (c :: t) :: ts
    else [] :: splitNonAlnum cs

/-- Models `tokenize` from src/main.rs: split on non-alphanumeric characters and
drop the empty pieces. -/
def tokenize (text : Str) : List Str :=
  (splitNonAlnum text).filter (fun s => !s.isEmpty)

/-- The ANSI escape prefix emitted by `colored`'s `.purple()` (see the expected
value in `highlight_test`). -/
def markStart : Str := ['\x1b', '[', '3', '5', 'm']

/-- The ANSI reset suffix emitted by `colored`'s `.purple()`. -/
def markEnd : Str := ['\x1b', '[', '0', 'm']

/-- The characters that carry special meaning in the `regex` crate pattern
syntax (outside character classes). -/
def isMeta (c : Char) : Bool :=
  decide (c = '\\') || decide (c = '.') || decide (c = '+') || decide (c = '*') ||
  decide (c = '?') || decide (c = '(') || decide (c = ')') || decide (c = '|') ||
  decide (c = '[') || decide (c = ']') || decide (c = '\x7b') || decide (c = '\x7d') ||
  decide (c = '^') || decide (c = '$')

/-- One element of the fragment of regex patterns this development models:
a literal character or the `.` wildcard. -/
inductive PatElem where
  | lit (c : Char)
  | dot
deriving DecidableEq

/-- Models `Regex::new(&format!(r"(?i){}", term))` on the fragment of terms
made of literal characters and `.`: a literal character becomes a literal
element, `.` becomes the any-character wildcard.  For a term containing any
other regex metacharacter the result is `none`: there `Regex::new` either
fails to compile — so the source's `.unwrap()` panics (e.g. term `"("`) — or
compiles to a non-literal pattern outside the modelled fragment (e.g. `"a*"`);
neither behaviour is literal matching, and the model leaves it undefined. -/
def parsePat : Str → Option (List PatElem)
  | [] => some []
  | c :: cs =>
    if c = '.' then (parsePat cs).map (fun p => PatElem.dot :: p)
    else if isMeta c then none
    else (parsePat cs).map (fun p => PatElem.lit c :: p)

/-- Whether a pattern element matches one character of the content, under the
case-insensitive `(?i)` flag (ASCII simple folding); `.` matches any character
except a newline. -/
def elemMatch : PatElem → Char → Bool
  | .lit d, c => decide (lowerChar c = lowerChar d)
  | .dot, c => decide (c ≠ '\n')

/-- Whether the pattern matches a prefix of the content (every element consumes
exactly one character, so a match consumes exactly `p.length` characters). -/
def matchesAt : List PatElem → Str → Bool
  | [], _ => true
  | _ :: _, [] => false
  | e :: es, c :: cs => elemMatch e c && matchesAt es cs

/-- Models `regex.replace_all(content, ..)` for the modelled fragment: scan left
to right, wrap each leftmost non-overlapping match in the purple markers
(an empty match — possible only for the empty pattern — is wrapped and the scan
then advances one character, as `replace_all` does).  The structural `fuel`
argument dominates the number of scan steps; `scanAll` supplies `length + 1`,
which is always sufficient. -/
def scanFuel (p : List PatElem) : Nat → Str → Str
  | 0, s => s
  | _ + 1, [] => if p.isEmpty then markStart ++ markEnd else []
  | fuel + 1, c :: cs =>
    if matchesAt p (c :: cs) then
      if p.isEmpty then markStart ++ markEnd ++ (c :: scanFuel p fuel cs)
      else
        markStart ++ (c :: cs).take p.length ++ markEnd ++
          scanFuel p fuel ((c :: cs).drop p.length)
    else c :: scanFuel p fuel cs

/-- Models `regex.replace_all` on the whole content. -/
def scanAll (p : List PatElem) (s : Str) : Str := scanFuel p (s.length + 1) s

/-- Models `highlight` from src/main.rs: compile `(?i)term` and wrap every
leftmost non-overlapping match of it in `content` in the ANSI purple markers.
`none` models the unmodelled metacharacter cases of `parsePat` (including the
panic of the source's `.unwrap()` on terms that are invalid patterns). -/
def highlight (term content : Str) : Option Str :=
  (parsePat term).map (fun p => scanAll p content)

/-- Whether `term` is a case-insensitive literal prefix of `s` (specification
notion, used to state what literal matching ought to do). -/
def prefixCI : Str → Str → Bool
  | [], _ => true
  | _ :: _, [] => false
  | a :: as, b :: bs => decide (lowerChar b = lowerChar a) && prefixCI as bs

/-- Whether `term` occurs in `s` as a case-insensitive literal substring. -/
def containsCI : Str → Str → Bool
  | t, [] => prefixCI t []
  | t, c :: cs => prefixCI t (c :: cs) || containsCI t cs

/-- The number of positions of `s` (including the end position) at which `term`
occurs as a case-insensitive literal substring. -/
def countCIOcc : Str → Str → Nat
  | t, [] => if prefixCI t [] then 1 else 0
  | t, c :: cs => (if prefixCI t (c :: cs) then 1 else 0) + countCIOcc t cs

/-- Models the `Document` struct of src/main.rs. -/
structure Document where
  id : Nat
  content : Str
deriving DecidableEq

/-- Models `HashMap<String, Vec<usize>>::get`. -/
def alGet : List (Str × List Nat) → Str → Option (List Nat)
  | [], _ => none
  | (k, v) :: rest, t => if k = t then some v else alGet rest t

/-- Models `self.indexes.entry(word).or_insert(Vec::new()).push(id)`: append
`id` to the vector stored under `word`, creating the entry if absent. -/
def alAppend : List (Str × List Nat) → Str → Nat → List (Str × List Nat)
  | [], w, id => [(w, [id])]
  | (k, v) :: rest, w, id =>
    if k = w then (k, v ++ [id]) :: rest else (k, v) :: alAppend rest w id

/-- Models `HashMap<usize, Document>::get`. -/
def dGet : List (Nat × Document) → Nat → Option Document
  | [], _ => none
  | (k, d) :: rest, i => if k = i then some d else dGet rest i

/-- Models `HashMap<usize, Document>::insert` (overwrite or add). -/
def dInsert : List (Nat × Document) → Nat → Document → List (Nat × Document)
  | [], i, d => [(i, d)]
  | (k, e) :: rest, i, d =>
    if k = i then (k, d) :: rest else (k, e) :: dInsert rest i d

/-- Models the `words.iter().for_each(..)` loop of `add`: push `id` under each
token, in tokenizer-emission order. -/
def addWords (m : List (Str × List Nat)) (ws : List Str) (id : Nat) :
    List (Str × List Nat) :=
  ws.foldl (fun acc w => alAppend acc w id) m

/-- Models the `InvertedIndex` struct of src/main.rs. -/
structure InvertedIndex where
  indexes : List (Str × List Nat)
  documents : List (Nat × Document)
deriving DecidableEq

/-- Models `InvertedIndex::new`. -/
def InvertedIndex.new : InvertedIndex :=
  { indexes := [], documents := [] }

/-- Models `InvertedIndex::add`: lowercase the content, tokenize the lowercased
copy, append `id` to each token's postings list, then store (or overwrite) the
original content under `id`. -/
def InvertedIndex.add (self : InvertedIndex) (id : Nat) (content : Str) :
    InvertedIndex :=
  let contentLower := lowerStr content
  let words := tokenize contentLower
  { indexes := addWords self.indexes words id,
    documents := dInsert self.documents id { id := id, content := content } }

/-- Models the `doc_ids.iter().filter_map(..).collect()` part of `query`: for
each id in postings order, skip it if its document is missing, otherwise
highlight the stored content.  The whole result is `none` when some reached
`highlight` call falls outside the modelled fragment (in the source that call
would panic). -/
def queryIds (docs : List (Nat × Document)) (termLower : Str) :
    List Nat → Option (List Str)
  | [] => some []
  | i :: is =>
    match dGet docs i with
    | none => queryIds docs termLower is
    | some doc =>
      match highlight termLower doc.content, queryIds docs termLower is with
      | some h, some rest => some (h :: rest)
      | _, _ => none

/-- Models `InvertedIndex::query`: lowercase the term, look up its postings
list, and render each posted document; an absent term yields the empty vector.
`query` takes `&self` in the source and is embedded as a pure function: it
cannot change the index state. -/
def InvertedIndex.query (self : InvertedIndex) (term : Str) :
    Option (List Str) :=
  let termLower := lowerStr term
  match alGet self.indexes termLower with
  | some docIds => queryIds self.documents termLower docIds
  | none => some []

/-- The postings list stored for `t`, read as a plain list (absent term =
empty list; the source never stores an empty vector, so nothing is conflated). -/
def postingsOf (m : List (Str × List Nat)) (t : Str) : List Nat :=
  (alGet m t).getD []

/-- The number of occurrences of the token `t` in a token list. -/
def countTok (t : Str) : List Str → Nat
  | [] => 0
  | w :: ws => (if w = t then 1 else 0) + countTok t ws

/-- The index states reachable from `InvertedIndex::new` by the program's
operations.  `add` is the only mutating operation; `query` takes `&self` and is
embedded as a pure function, so it does not change the state. -/
inductive Reachable : InvertedIndex → Prop
  | new : Reachable InvertedIndex.new
  | add {s : InvertedIndex} {id : Nat} {content : Str} :
      Reachable s → Reachable (s.add id content)

/-- Specification of the tokenizer, phrased as in the spec: the output is the
list of maximal runs of alphanumeric characters of the input, in left-to-right
order.  `sep` consumes a separator character; `run` consumes a non-empty
all-alphanumeric block that is maximal (the rest of the input does not start
with a further alphanumeric character). -/
inductive Runs : Str → List Str → Prop
  | nil : Runs [] []
  | sep {c : Char} {s : Str} {ts : List Str} :
      isAlnum c = false → Runs s ts → Runs (c :: s) ts
  | run {t s : Str} {ts : List Str} :
      t ≠ [] → (∀ c ∈ t, isAlnum c = true) →
      (∀ (d : Char) (s₂ : Str), s = d :: s₂ → isAlnum d = false) →
      Runs s ts → Runs (t ++ s) (t :: ts)

/-- Specification of the highlighter, phrased as in the spec: the output copies
the content left to right; a character at which no case-insensitive occurrence
of the term starts is copied unchanged (`skip`), and a case-insensitive
occurrence is copied with its original casing, wrapped in the marker pair
(`mark`).  Because `skip` applies only where no occurrence starts, every
occurrence not overlapping an earlier marked one is wrapped. -/
inductive HL (term : Str) : Str → Str → Prop
  | done : HL term [] []
  | skip {c : Char} {s r : Str} :
      prefixCI term (c :: s) = false → HL term s r → HL term (c :: s) (c :: r)
  | mark {m s r : Str} :
      m ≠ [] → lowerStr m = lowerStr term → HL term s r →
      HL term (m ++ s) (markStart ++ m ++ markEnd ++ r)

/-! ### Character-level facts -/

theorem alnum_not_meta {c : Char} (h : isAlnum c = true) : isMeta c = false := by
  by_contra hb
  have hm : isMeta c = true := by
    cases hm : isMeta c with
    | false => exact absurd hm hb
    | true => rfl
  simp only [isMeta, Bool.or_eq_true, decide_eq_true_eq] at hm
  rcases hm with ((((((((((((h1 | h1) | h1) | h1) | h1) | h1) | h1) | h1) | h1) |
    h1) | h1) | h1) | h1) | h1 <;> subst h1 <;> simp [isAlnum] at h

theorem alnum_ne_dot {c : Char} (h : isAlnum c = true) : c ≠ '.' := by
  intro hc; subst hc; simp [isAlnum] at h

/-! ### Tokenizer facts -/

/-- The pieces of the split after the first one: nothing if no separator
remains, otherwise the split of what follows the first separator. -/
def splitRest (s : Str) : List Str :=
  match s.dropWhile isAlnum with
  | [] => []
  | _ :: r => splitNonAlnum r

theorem splitNonAlnum_eq (s : Str) :
    splitNonAlnum s = s.takeWhile isAlnum :: splitRest s := by
  induction s with
  | nil => simp [splitNonAlnum, splitRest, List.takeWhile, List.dropWhile]
  | cons c cs ih =>
    by_cases hc : isAlnum c = true
    · simp [splitNonAlnum, hc, ih, splitRest, List.takeWhile_cons, List.dropWhile_cons]
    · have hc' : isAlnum c = false := by
        cases h : isAlnum c with
        | false => rfl
        | true => exact absurd h hc
      simp [splitNonAlnum, splitRest, hc', List.takeWhile_cons, List.dropWhile_cons]

theorem dropWhile_head_sep :
    ∀ (s : Str) (d : Char) (r : Str),
      s.dropWhile isAlnum = d :: r → isAlnum d = false := by
  intro s
  induction s with
  | nil => intro d r h; simp [List.dropWhile] at h
  | cons c cs ih =>
    intro d r h
    by_cases hc : isAlnum c = true
    · rw [List.dropWhile_cons, if_pos hc] at h
      exact ih d r h
    · have hc' : isAlnum c = false := by
        cases hcc : isAlnum c with
        | false => rfl
        | true => exact absurd hcc hc
      rw [List.dropWhile_cons, if_neg (by simp [hc'])] at h
      cases h; exact hc'

theorem tokenize_nil : tokenize [] = [] := by decide

theorem length_dropWhile_alnum (s : Str) :
    (s.dropWhile isAlnum).length ≤ s.length := by
  induction s with
  | nil => simp [List.dropWhile]
  | cons c cs ih =>
    rw [List.dropWhile_cons]
    by_cases hc : isAlnum c = true
    · simp only [hc, if_true]
      exact Nat.le_succ_of_le ih
    · simp [hc]

theorem tokenize_cons_sep {c : Char} {s : Str} (hc : isAlnum c = false) :
    tokenize (c :: s) = tokenize s := by
  simp [tokenize, splitNonAlnum, hc]

theorem filter_splitRest (s : Str) :
    (splitRest s).filter (fun x => !x.isEmpty) = tokenize (s.dropWhile isAlnum) := by
  cases h : s.dropWhile isAlnum with
  | nil => simp [splitRest, h, tokenize_nil]
  | cons d r =>
    have hd : isAlnum d = false := dropWhile_head_sep s d r h
    simp only [splitRest, h]
    rw [tokenize_cons_sep hd]
    rfl

theorem tokenize_head_alnum {c : Char} {s : Str} (hc : isAlnum c = true) :
    tokenize (c :: s) =
      (c :: s.takeWhile isAlnum) :: tokenize (s.dropWhile isAlnum) := by
  have h1 : tokenize (c :: s) =
      ((c :: s).takeWhile isAlnum :: splitRest (c :: s)).filter (fun x => !x.isEmpty) := by
    rw [tokenize, splitNonAlnum_eq]
  rw [h1, List.filter_cons]
  have h2 : (c :: s).takeWhile isAlnum = c :: s.takeWhile isAlnum := by
    simp [List.takeWhile_cons, hc]
  have h3 : splitRest (c :: s) = splitRest s := by
    simp [splitRest, List.dropWhile_cons, hc]
  rw [h2, h3, filter_splitRest]
  simp

theorem runs_tokenize_aux :
    ∀ (n : Nat) (s : Str), s.length ≤ n → Runs s (tokenize s) := by
  intro n
  induction n with
  | zero =>
    intro s hs
    have : s = [] := List.eq_nil_of_length_eq_zero (Nat.le_zero.mp hs)
    subst this
    rw [tokenize_nil]; exact Runs.nil
  | succ n ih =>
    intro s hs
    cases s with
    | nil => rw [tokenize_nil]; exact Runs.nil
    | cons c cs =>
      by_cases hc : isAlnum c = true
      · rw [tokenize_head_alnum hc]
        have hlen : cs.length ≤ n := by
          simp only [List.length_cons] at hs; omega
        have hrest : Runs (cs.dropWhile isAlnum) (tokenize (cs.dropWhile isAlnum)) := by
          apply ih
          have := length_dropWhile_alnum cs
          omega
        have hrun := @Runs.run (c :: cs.takeWhile isAlnum)
          (cs.dropWhile isAlnum) (tokenize (cs.dropWhile isAlnum))
          (by simp)
          (by
            intro x hx
            rcases List.mem_cons.mp hx with h | h
            · subst h; exact hc
            · exact List.mem_takeWhile_imp h)
          (fun d s₂ hd => dropWhile_head_sep cs d s₂ hd)
          hrest
        rwa [List.cons_append, List.takeWhile_append_dropWhile] at hrun
      · have hc' : isAlnum c = false := by
          cases hcc : isAlnum c with
          | false => rfl
          | true => exact absurd hcc hc
        rw [tokenize_cons_sep hc']
        exact Runs.sep hc' (ih cs (by simp only [List.length_cons] at hs; omega))

theorem runs_tokenize (s : Str) : Runs s (tokenize s) :=
  runs_tokenize_aux s.length s Nat.le.refl

theorem runs_tokens {s : Str} {ts : List Str} (h : Runs s ts) :
    ∀ t ∈ ts, t ≠ [] ∧ ∀ c ∈ t, isAlnum c = true := by
  induction h with
  | nil => intro t ht; cases ht
  | sep _ _ ih => exact ih
  | run hne halnum _ _ ih =>
    intro t ht
    rcases List.mem_cons.mp ht with h | h
    · subst h; exact ⟨hne, halnum⟩
    · exact ih t h

theorem tokenize_mem {s t : Str} (ht : t ∈ tokenize s) :
    t ≠ [] ∧ ∀ c ∈ t, isAlnum c = true :=
  runs_tokens (runs_tokenize s) t ht

theorem tokenize_of_no_alnum {s : Str} (h : ∀ c ∈ s, isAlnum c = false) :
    tokenize s = [] := by
  induction s with
  | nil => exact tokenize_nil
  | cons c cs ih =>
    rw [tokenize_cons_sep (h c (List.mem_cons_self c cs))]
    exact ih fun x hx => h x (List.mem_cons_of_mem c hx)

/-! ### Postings-map facts -/

theorem alGet_alAppend_self (m : List (Str × List Nat)) (w : Str) (id : Nat) :
    alGet (alAppend m w id) w = some ((alGet m w).getD [] ++ [id]) := by
  induction m with
  | nil => simp [alAppend, alGet]
  | cons kv rest ih =>
    obtain ⟨k, v⟩ := kv
    by_cases hk : k = w
    · subst hk; simp [alAppend, alGet]
    · simp [alAppend, alGet, hk, ih]

theorem alGet_alAppend_ne {w t : Str} (m : List (Str × List Nat)) (id : Nat)
    (h : w ≠ t) : alGet (alAppend m w id) t = alGet m t := by
  induction m with
  | nil => simp [alAppend, alGet, h]
  | cons kv rest ih =>
    obtain ⟨k, v⟩ := kv
    by_cases hk : k = w
    · subst hk; simp [alAppend, alGet, h]
    · simp [alAppend, alGet, hk, ih]

theorem postingsOf_alAppend_self (m : List (Str × List Nat)) (w : Str) (id : Nat) :
    postingsOf (alAppend m w id) w = postingsOf m w ++ [id] := by
  simp [postingsOf, alGet_alAppend_self]

theorem postingsOf_addWords (ws : List Str) (m : List (Str × List Nat))
    (id : Nat) (t : Str) :
    postingsOf (addWords m ws id) t =
      postingsOf m t ++ List.replicate (countTok t ws) id := by
  induction ws generalizing m with
  | nil => simp [addWords, countTok]
  | cons w ws ih =>
    have hstep : addWords m (w :: ws) id = addWords (alAppend m w id) ws id := by
      simp [addWords]
    rw [hstep, ih]
    by_cases hw : w = t
    · subst hw
      rw [postingsOf_alAppend_self]
      simp [countTok, List.replicate_succ, Nat.add_comm]
    · have : postingsOf (alAppend m w id) t = postingsOf m t := by
        simp [postingsOf, alGet_alAppend_ne m id hw]
      rw [this]
      simp [countTok, hw]

theorem alGet_addWords_not_mem {t : Str} (ws : List Str)
    (m : List (Str × List Nat)) (id : Nat) (h : t ∉ ws) :
    alGet (addWords m ws id) t = alGet m t := by
  induction ws generalizing m with
  | nil => simp [addWords]
  | cons w ws ih =>
    have hstep : addWords m (w :: ws) id = addWords (alAppend m w id) ws id := by
      simp [addWords]
    have hw : w ≠ t := fun he => h (he ▸ List.mem_cons_self w ws)
    have ht : t ∉ ws := fun he => h (List.mem_cons_of_mem w he)
    rw [hstep, ih (alAppend m w id) ht, alGet_alAppend_ne m id hw]

theorem alGet_addWords_cases {t : Str} {ids : List Nat} (ws : List Str)
    (m : List (Str × List Nat)) (id : Nat)
    (h : alGet (addWords m ws id) t = some ids) :
    (∃ ids₀, alGet m t = some ids₀) ∨ t ∈ ws := by
  induction ws generalizing m with
  | nil => exact Or.inl ⟨ids, by simpa [addWords] using h⟩
  | cons w ws ih =>
    have hstep : addWords m (w :: ws) id = addWords (alAppend m w id) ws id := by
      simp [addWords]
    rw [hstep] at h
    rcases ih (alAppend m w id) h with ⟨ids₀, h₀⟩ | hmem
    · by_cases hw : w = t
      · exact Or.inr (hw ▸ List.mem_cons_self w ws)
      · rw [alGet_alAppend_ne m id hw] at h₀
        exact Or.inl ⟨ids₀, h₀⟩
    · exact Or.inr (List.mem_cons_of_mem w hmem)

/-! ### Document-store facts -/

theorem dGet_dInsert_self (m : List (Nat × Document)) (i : Nat) (d : Document) :
    dGet (dInsert m i d) i = some d := by
  induction m with
  | nil => simp [dInsert, dGet]
  | cons kv rest ih =>
    obtain ⟨k, e⟩ := kv
    by_cases hk : k = i
    · subst hk; simp [dInsert, dGet]
    · simp [dInsert, dGet, hk, ih]

theorem dGet_dInsert_ne {j i : Nat} (m : List (Nat × Document)) (d : Document)
    (h : j ≠ i) : dGet (dInsert m i d) j = dGet m j := by
  have hij : ¬ i = j := fun he => h (Eq.symm he)
  induction m with
  | nil => simp [dInsert, dGet, hij]
  | cons kv rest ih =>
    obtain ⟨k, e⟩ := kv
    by_cases hk : k = i
    · subst hk
      simp [dInsert, dGet, hij]
    · simp [dInsert, dGet, hk, ih]

/-! ### Index-state invariants -/

/-- Every key of the postings map is a non-empty all-alphanumeric string (it
was produced by the tokenizer). -/
def KeysWF (idx : InvertedIndex) : Prop :=
  ∀ t ids, alGet idx.indexes t = some ids → t ≠ [] ∧ ∀ c ∈ t, isAlnum c = true

theorem reachable_keysWF {idx : InvertedIndex} (h : Reachable idx) : KeysWF idx := by
  induction h with
  | new => intro t ids hget; simp [InvertedIndex.new, alGet] at hget
  | add _ ih =>
    intro t ids hget
    rcases alGet_addWords_cases _ _ _ hget with ⟨ids₀, h₀⟩ | hmem
    · exact ih t ids₀ h₀
    · exact tokenize_mem hmem

/-! ### Pattern facts -/

theorem parsePat_alnum {t : Str} (h : ∀ c ∈ t, isAlnum c = true) :
    ∃ p, parsePat t = some p := by
  induction t with
  | nil => exact ⟨[], rfl⟩
  | cons c cs ih =>
    have hc := h c (List.mem_cons_self c cs)
    obtain ⟨p, hp⟩ := ih fun x hx => h x (List.mem_cons_of_mem c hx)
    refine ⟨PatElem.lit c :: p, ?_⟩
    simp [parsePat, alnum_ne_dot hc, alnum_not_meta hc, hp]

theorem parsePat_litFree {t : Str} (h : ∀ c ∈ t, isMeta c = false) :
    parsePat t = some (t.map PatElem.lit) := by
  induction t with
  | nil => rfl
  | cons c cs ih =>
    have hc := h c (List.mem_cons_self c cs)
    have hdot : c ≠ '.' := by
      intro he; subst he; simp [isMeta] at hc
    rw [List.map_cons, parsePat]
    simp only [hdot, if_false, hc, ih fun x hx => h x (List.mem_cons_of_mem c hx)]
    rfl

theorem matchesAt_map_lit (t : Str) :
    ∀ s : Str, matchesAt (t.map PatElem.lit) s = prefixCI t s := by
  induction t with
  | nil => intro s; rfl
  | cons a as ih =>
    intro s
    cases s with
    | nil => rfl
    | cons b bs => simp [matchesAt, prefixCI, elemMatch, ih]

theorem prefixCI_spec (t : Str) :
    ∀ s : Str, prefixCI t s = true →
      lowerStr (s.take t.length) = lowerStr t ∧ t.length ≤ s.length := by
  induction t with
  | nil => intro s _; simp [lowerStr]
  | cons a as ih =>
    intro s h
    cases s with
    | nil => simp [prefixCI] at h
    | cons b bs =>
      simp only [prefixCI, Bool.and_eq_true, decide_eq_true_eq] at h
      obtain ⟨hab, hrest⟩ := h
      obtain ⟨ih1, ih2⟩ := ih bs hrest
      constructor
      · simp [List.length_cons, List.take_succ_cons, lowerStr, hab]
        simpa [lowerStr] using ih1
      · simpa [List.length_cons] using Nat.succ_le_succ ih2

/-! ### The highlighter refines the literal-matching specification -/

theorem hl_mark_step {term s r : Str} (hne : term ≠ [])
    (hp : prefixCI term s = true) (hr : HL term (s.drop term.length) r) :
    HL term s (markStart ++ s.take term.length ++ markEnd ++ r) := by
  obtain ⟨hlow, hlen⟩ := prefixCI_spec term s hp
  have htne : term.length ≠ 0 := fun h0 => hne (List.eq_nil_of_length_eq_zero h0)
  have hmne : s.take term.length ≠ [] := by
    intro h0
    have := congrArg List.length h0
    simp only [List.length_take, List.length_nil] at this
    omega
  have hmark := HL.mark hmne hlow hr
  rwa [List.take_append_drop] at hmark

theorem hl_scanFuel :
    ∀ (fuel : Nat) (term content : Str), term ≠ [] →
      content.length < fuel →
      HL term content (scanFuel (term.map PatElem.lit) fuel content) := by
  intro fuel
  induction fuel with
  | zero => intro term content _ hlen; omega
  | succ n ih =>
    intro term content hne hlen
    have hpne : (term.map PatElem.lit).isEmpty = false := by
      cases term with
      | nil => exact absurd rfl hne
      | cons a as => rfl
    cases content with
    | nil =>
      simp only [scanFuel, hpne, if_false]
      exact HL.done
    | cons c cs =>
      cases hm : matchesAt (term.map PatElem.lit) (c :: cs) with
      | false =>
        simp only [scanFuel, hm, if_false]
        have hpre : prefixCI term (c :: cs) = false := by
          rw [← matchesAt_map_lit]; exact hm
        have hlen' : cs.length < n := by
          simp only [List.length_cons] at hlen; omega
        exact HL.skip hpre (ih term cs hne hlen')
      | true =>
        simp only [scanFuel, hm, if_true, hpne, if_false]
        have hpre : prefixCI term (c :: cs) = true := by
          rw [← matchesAt_map_lit]; exact hm
        have htne : term.length ≠ 0 :=
          fun h0 => hne (List.eq_nil_of_length_eq_zero h0)
        have hdlen : ((c :: cs).drop (term.map PatElem.lit).length).length < n := by
          simp only [List.length_drop, List.length_map, List.length_cons]
          simp only [List.length_cons] at hlen
          omega
        have hrest := ih term ((c :: cs).drop (term.map PatElem.lit).length) hne hdlen
        rw [List.length_map] at hrest ⊢
        exact hl_mark_step hne hpre hrest

theorem hl_scanAll {term content : Str} (hne : term ≠ []) :
    HL term content (scanAll (term.map PatElem.lit) content) :=
  hl_scanFuel (content.length + 1) term content hne (Nat.lt_succ_self _)

/-! ### Query totality -/

theorem queryIds_isSome {termLower : Str} {p : List PatElem}
    (docs : List (Nat × Document)) (hp : parsePat termLower = some p) :
    ∀ ids : List Nat, ∃ rs, queryIds docs termLower ids = some rs := by
  intro ids
  induction ids with
  | nil => exact ⟨[], rfl⟩
  | cons i is ih =>
    obtain ⟨rs, hrs⟩ := ih
    cases hd : dGet docs i with
    | none => exact ⟨rs, by simp [queryIds, hd, hrs]⟩
    | some doc =>
      refine ⟨scanAll p doc.content :: rs, ?_⟩
      simp [queryIds, hd, highlight, hp, hrs]

theorem add_indexes (idx : InvertedIndex) (id : Nat) (content : Str) :
    (idx.add id content).indexes =
      addWords idx.indexes (tokenize (lowerStr content)) id := rfl

theorem add_documents (idx : InvertedIndex) (id : Nat) (content : Str) :
    (idx.add id content).documents =
      dInsert idx.documents id { id := id, content := content } := rfl

/-! ### The claims -/

/-- C1: for every reachable index state and every search term, `query`
terminates normally and returns a sequence (possibly empty); in particular the
highlighting step never fails, even for terms containing regex metacharacters
such as `(` or `*`.  Every postings key is an all-alphanumeric token, so a
metacharacter-containing term never reaches `highlight`: its lookup misses and
`query` returns the empty vector; a term that does reach `highlight` is
alphanumeric, for which the pattern compiles and matches literally. -/
theorem c1_query_never_fails (idx : InvertedIndex) (h : Reachable idx)
    (term : Str) : ∃ rs, idx.query term = some rs := by
  cases hget : alGet idx.indexes (lowerStr term) with
  | none => exact ⟨[], by simp [InvertedIndex.query, hget]⟩
  | some ids =>
    obtain ⟨_, halnum⟩ := reachable_keysWF h _ _ hget
    obtain ⟨p, hp⟩ := parsePat_alnum halnum
    obtain ⟨rs, hrs⟩ := queryIds_isSome idx.documents hp ids
    exact ⟨rs, by simp [InvertedIndex.query, hget, hrs]⟩

/-- Witness for C1 at a concrete reachable state and the metacharacter term
`"("` from the claim. -/
theorem c1_query_never_fails_witness :
    ∃ rs, (InvertedIndex.new.add 1 "Rust is safe".data).query "(".data = some rs :=
  c1_query_never_fails _ (Reachable.add Reachable.new) "(".data

/-- C2: the claim states that `highlight` matches the term as a literal
substring with metacharacters carrying no special meaning.  The code instead
feeds the unescaped term to `Regex::new`: for the term `"a.c"` the `.` acts as
a wildcard, so `"axc"` — not a case-insensitive literal occurrence of the term
— is marked in the content `"axc"`; and for the term `"("` the pattern does not
even compile, so the source's `.unwrap()` panics (modelled by `none`). -/
theorem c2_highlight_is_regex_not_literal :
    containsCI "a.c".data "axc".data = false ∧
    highlight "a.c".data "axc".data = some (markStart ++ "axc".data ++ markEnd) ∧
    highlight "(".data "a(b".data = none := by decide

/-- Counterexample to C3 as stated: (overlap) for the term `"aa"` and content
`"AAa"` there are two case-insensitive occurrences, but the leftmost
non-overlapping scan wraps only the first, leaving the occurrence at index 1
unmarked; (metacharacter) for the term `"a.c"` highlighting succeeds yet the
marked span `"axc"` is not an occurrence of the term at all. -/
theorem c3_counterexample :
    (countCIOcc "aa".data "AAa".data = 2 ∧
      highlight "aa".data "AAa".data =
        some (markStart ++ "AA".data ++ markEnd ++ "a".data)) ∧
    (containsCI "a.c".data "axc".data = false ∧
      (highlight "a.c".data "axc".data).isSome = true ∧
      highlight "a.c".data "axc".data = some (markStart ++ "axc".data ++ markEnd)) := by
  decide

/-- C3 (amended): for every non-empty term free of regex metacharacters and
every content, highlighting succeeds and wraps every case-insensitive
occurrence of the term found by the leftmost non-overlapping scan — not just
the first — in the marker pair; the text inside each marked span is the
matched substring with its original casing, and the text outside the spans is
the original content unchanged (the `HL` relation). -/
theorem c3_highlight_all_occurrences (term content : Str) (hne : term ≠ [])
    (hlit : ∀ c ∈ term, isMeta c = false) :
    ∃ res, highlight term content = some res ∧ HL term content res := by
  refine ⟨scanAll (term.map PatElem.lit) content, ?_, hl_scanAll hne⟩
  simp [highlight, parsePat_litFree hlit]

/-- Witness for C3 at the example of the claim, together with the exact output
(the expected value of `highlight_test`). -/
theorem c3_highlight_all_occurrences_witness :
    (∃ res,
      highlight "programming".data "I like programming with Rust Programming".data =
        some res ∧
      HL "programming".data "I like programming with Rust Programming".data res) ∧
    highlight "programming".data "I like programming with Rust Programming".data =
      some ("I like ".data ++ markStart ++ "programming".data ++ markEnd ++
        " with Rust ".data ++ markStart ++ "Programming".data ++ markEnd) :=
  ⟨c3_highlight_all_occurrences _ _ (by decide) (by decide), by decide⟩

/-- C4: `tokenize` returns exactly the maximal runs of alphanumeric characters
of the input in left-to-right order (the `Runs` relation); every token is
non-empty and all-alphanumeric; empty input and input without alphanumeric
characters yield the empty sequence; and the spec's example evaluates as
stated (it is the expected value of `tokenize_test`). -/
theorem c4_tokenize_maximal_runs :
    (∀ s : Str, Runs s (tokenize s)) ∧
    (∀ s t : Str, t ∈ tokenize s → t ≠ [] ∧ ∀ c ∈ t, isAlnum c = true) ∧
    (∀ s : Str, (∀ c ∈ s, isAlnum c = false) → tokenize s = []) ∧
    tokenize [] = [] ∧
    tokenize "This is\nhedon's tokenize function.".data =
      ["This".data, "is".data, "hedon".data, "s".data, "tokenize".data,
        "function".data] :=
  ⟨runs_tokenize, fun _ _ ht => tokenize_mem ht,
    fun _ h => tokenize_of_no_alnum h, tokenize_nil, by decide⟩

/-- Witness for C4: the hypotheses of the conditional conjuncts discharged at
concrete inputs. -/
theorem c4_tokenize_maximal_runs_witness :
    ("This".data ≠ [] ∧ ∀ c ∈ "This".data, isAlnum c = true) ∧
    tokenize " .,!".data = [] :=
  ⟨c4_tokenize_maximal_runs.2.1 "This is\nhedon's tokenize function.".data
      "This".data (by decide),
    c4_tokenize_maximal_runs.2.2.1 " .,!".data (by decide)⟩

/-- C5: indexing and querying are case-insensitive: `query` depends only on
the lowercased term, so two terms equal up to letter case give identical
results on every index state. -/
theorem c5_query_case_insensitive (idx : InvertedIndex) (t1 t2 : Str)
    (h : lowerStr t1 = lowerStr t2) : idx.query t1 = idx.query t2 := by
  simp only [InvertedIndex.query, h]

/-- Witness for C5 at the claim's example: after `add(1, "Rust is safe")`,
`query("RUST")` and `query("rust")` agree. -/
theorem c5_query_case_insensitive_witness :
    (InvertedIndex.new.add 1 "Rust is safe".data).query "RUST".data =
      (InvertedIndex.new.add 1 "Rust is safe".data).query "rust".data :=
  c5_query_case_insensitive _ "RUST".data "rust".data (by decide)

/-- C6: postings lists are append-only and insertion-ordered: `add` appends
`id` once per occurrence of the term among the content's tokens, after the
existing entries; and at the claim's example, adding ids 2, 1, 3 in that call
order for the shared term `"apple"` yields the postings list `[2, 1, 3]` and
`query` returns the three highlighted documents in exactly that order. -/
theorem c6_postings_insertion_order :
    (∀ (idx : InvertedIndex) (id : Nat) (content t : Str),
        postingsOf (idx.add id content).indexes t =
          postingsOf idx.indexes t ++
            List.replicate (countTok t (tokenize (lowerStr content))) id) ∧
    postingsOf (((InvertedIndex.new.add 2 "red apple".data).add 1
        "green apple".data).add 3 "blue apple".data).indexes "apple".data =
      [2, 1, 3] ∧
    (((InvertedIndex.new.add 2 "red apple".data).add 1
        "green apple".data).add 3 "blue apple".data).query "apple".data =
      some ["red ".data ++ markStart ++ "apple".data ++ markEnd,
        "green ".data ++ markStart ++ "apple".data ++ markEnd,
        "blue ".data ++ markStart ++ "apple".data ++ markEnd] :=
  ⟨fun idx id content t => by
      rw [add_indexes]; exact postingsOf_addWords _ _ _ _,
    by decide, by decide⟩

/-- C7: in every reachable index state, every document id appearing in any
postings list has an entry in the document store.  `add` preserves the
invariant because it inserts the document under the same id it appends to the
postings lists; `query` takes `&self` (embedded as a pure function) and so
preserves every state invariant trivially. -/
theorem c7_postings_ids_have_documents (idx : InvertedIndex) (h : Reachable idx) :
    ∀ (t : Str) (ids : List Nat), alGet idx.indexes t = some ids →
      ∀ i ∈ ids, (dGet idx.documents i).isSome = true := by
  induction h with
  | new => intro t ids hget; simp [InvertedIndex.new, alGet] at hget
  | @add s id content _ ih =>
    intro t ids hget i hi
    rw [add_indexes] at hget
    have hpo := postingsOf_addWords (tokenize (lowerStr content)) s.indexes id t
    simp only [postingsOf] at hpo
    rw [hget, Option.getD_some] at hpo
    rw [hpo] at hi
    rw [add_documents]
    rcases List.mem_append.mp hi with hold | hrep
    · cases hg0 : alGet s.indexes t with
      | none => simp [postingsOf, hg0] at hold
      | some ids₀ =>
        have hisome := ih t ids₀ hg0 i (by simpa [postingsOf, hg0] using hold)
        by_cases hii : i = id
        · subst hii; simp [dGet_dInsert_self]
        · rw [dGet_dInsert_ne _ _ hii]; exact hisome
    · have : i = id := List.eq_of_mem_replicate hrep
      subst this
      simp [dGet_dInsert_self]

/-- Witness for C7 at a concrete reachable state. -/
theorem c7_postings_ids_have_documents_witness :
    (dGet (InvertedIndex.new.add 1 "hi".data).documents 1).isSome = true :=
  c7_postings_ids_have_documents _ (Reachable.add Reachable.new)
    "hi".data [1] (by decide) 1 (by decide)

/-- C8: re-adding a document under an already-used id overwrites the stored
text but removes no postings entries (the old postings list stays a prefix);
at the concrete example, adding id 1 twice for the term `"apple"` leaves the
postings list `[1, 1]` and `query` returns one highlighted string per entry —
two duplicates, each rendered from the currently stored text. -/
theorem c8_readd_overwrites_text_keeps_postings :
    (∀ (idx : InvertedIndex) (id : Nat) (content : Str),
        dGet (idx.add id content).documents id =
          some { id := id, content := content }) ∧
    (∀ (idx : InvertedIndex) (id : Nat) (content t : Str),
        ∃ appended, postingsOf (idx.add id content).indexes t =
          postingsOf idx.indexes t ++ appended) ∧
    postingsOf ((InvertedIndex.new.add 1 "apple pie".data).add 1
        "apple tart".data).indexes "apple".data = [1, 1] ∧
    ((InvertedIndex.new.add 1 "apple pie".data).add 1
        "apple tart".data).query "apple".data =
      some [markStart ++ "apple".data ++ markEnd ++ " tart".data,
        markStart ++ "apple".data ++ markEnd ++ " tart".data] :=
  ⟨fun idx id content => by rw [add_documents]; exact dGet_dInsert_self _ _ _,
    fun idx id content t =>
      ⟨List.replicate (countTok t (tokenize (lowerStr content))) id, by
        rw [add_indexes]; exact postingsOf_addWords _ _ _ _⟩,
    by decide, by decide⟩

/-- C9: a term whose lowercased form has no postings list (in particular any
term never added) makes `query` return the empty sequence as an ordinary
result, not an error. -/
theorem c9_absent_term_returns_empty (idx : InvertedIndex) (term : Str)
    (h : alGet idx.indexes (lowerStr term) = none) :
    idx.query term = some [] := by
  simp [InvertedIndex.query, h]

/-- Witness for C9: querying a never-added term on a populated index. -/
theorem c9_absent_term_returns_empty_witness :
    (InvertedIndex.new.add 1 "Rust is safe".data).query "python".data = some [] :=
  c9_absent_term_returns_empty _ "python".data (by decide)

/-- C10: frame property of `add`: it changes only the postings lists of terms
occurring among the tokens of the lowercased content and the document-store
entry of `id` itself; every other term's postings list and every other id's
stored document are unchanged. -/
theorem c10_add_frame (idx : InvertedIndex) (id : Nat) (content : Str) :
    (∀ t : Str, t ∉ tokenize (lowerStr content) →
        alGet (idx.add id content).indexes t = alGet idx.indexes t) ∧
    (∀ j : Nat, j ≠ id →
        dGet (idx.add id content).documents j = dGet idx.documents j) := by
  constructor
  · intro t ht
    rw [add_indexes]
    exact alGet_addWords_not_mem _ _ _ ht
  · intro j hj
    rw [add_documents]
    exact dGet_dInsert_ne _ _ hj

/-- Witness for C10: adding document 2 leaves the postings of `"hi"` and the
stored document 1 untouched. -/
theorem c10_add_frame_witness :
    alGet ((InvertedIndex.new.add 1 "hi there".data).add 2
        "bye".data).indexes "hi".data =
      alGet (InvertedIndex.new.add 1 "hi there".data).indexes "hi".data ∧
    dGet ((InvertedIndex.new.add 1 "hi there".data).add 2
        "bye".data).documents 1 =
      dGet (InvertedIndex.new.add 1 "hi there".data).documents 1 :=
  ⟨(c10_add_frame _ 2 "bye".data).1 "hi".data (by decide),
    (c10_add_frame _ 2 "bye".data).2 1 (by decide)⟩

end InvIdx
